import Mathlib

/-!
Shallow embedding of `src/vector.h`: a dynamically-resizable sequence
(`Vector<T>`) built on a raw storage block (`RawMemory<T>`).

Modelling choices:
* A `Vector` state is the list of live elements (`data_[0, size_)`) together
  with the capacity of the owned `RawMemory` block; `size_` is the list length.
* Element moves and copies are modelled value-semantically (a moved-from
  trivially-copyable element such as `int` retains its value), so the buffer
  manipulations of `EmplaceNoAlloc` and `Erase` are expressed as index loops
  over the live region, mirroring `std::move_backward` / `std::move`.
* The `d : α` argument threaded through buffer operations is only the default
  returned by out-of-range reads (`List.getD`); all reads performed by the
  embedded code are in bounds, so its value never matters.
* Throwing copy constructors are modelled by a predicate `throws k` telling
  whether the k-th copy invocation (1-based) fails; see `copyNExc`.
-/

namespace CppVector

/-- Models `Vector<T>` (src/vector.h:90-313): `elems` is the live prefix
`data_[0, size_)` and `capacity` is `data_.Capacity()`, the slot count of the
owned `RawMemory` block. `size_` is `elems.length`. -/
structure Vector (α : Type) where
  elems : List α
  capacity : Nat
  deriving DecidableEq

variable {α : Type}

/-- `Vector::Size()` (src/vector.h:180): the count of live elements. -/
def Vector.size (s : Vector α) : Nat := s.elems.length

/-- The container invariant `0 <= size <= capacity`. -/
def Vector.Wf (s : Vector α) : Prop := s.size ≤ s.capacity

instance (s : Vector α) : Decidable s.Wf :=
  inferInstanceAs (Decidable (s.size ≤ s.capacity))

/-- The write iterations of `std::move_backward`: `n` times
`buf[--dlast] = move(buf[--last])` (a moved-from element of a trivially
copyable type keeps its value). -/
def moveBackwardIter (d : α) : Nat → List α → Nat → Nat → List α
  | 0, b, _, _ => b
  | n + 1, b, last, dlast =>
      moveBackwardIter d n (b.set (dlast - 1) (b.getD (last - 1) d)) (last - 1) (dlast - 1)

/-- `std::move_backward(buf + first, buf + last, buf + dlast)` as used in
`EmplaceNoAlloc` (src/vector.h:260): exactly `last - first` writes, from the
back of the range forward. -/
def moveBackwardLoop (d : α) (b : List α) (first last dlast : Nat) : List α :=
  moveBackwardIter d (last - first) b last dlast

/-- The write iterations of `std::move`: `n` times
`buf[dfirst++] = move(buf[first++])`. -/
def moveIter (d : α) : Nat → List α → Nat → Nat → List α
  | 0, b, _, _ => b
  | n + 1, b, first, dfirst =>
      moveIter d n (b.set dfirst (b.getD first d)) (first + 1) (dfirst + 1)

/-- `std::move(buf + first, buf + last, buf + dfirst)` as used in `Erase`
(src/vector.h:230): exactly `last - first` writes, from the front of the
range backward. -/
def moveLoop (d : α) (b : List α) (first last dfirst : Nat) : List α :=
  moveIter d (last - first) b first dfirst

/-- `Vector::EmplaceNoAlloc` (src/vector.h:255-268), effect on the live
elements, for a non-aliasing argument `v`.  If `size_ != i_pos`, the last
element is move-constructed into the one-past-end slot, `[i_pos, size-1)` is
shifted one slot right by `move_backward`, and the temporary `T(args...)` is
move-assigned into slot `i_pos`; otherwise `v` is constructed at the end. -/
def emplaceNoAllocElems (d : α) (elems : List α) (i_pos : Nat) (v : α) : List α :=
  if elems.length ≠ i_pos then
    (moveBackwardLoop d (elems ++ [elems.getD (elems.length - 1) d]) i_pos
        (elems.length - 1) elems.length).set i_pos v
  else
    elems ++ [v]

/-- `Vector::EmplaceNoAlloc` when the inserted value is a reference to the
element currently stored at index `j` of this same vector.  In the source the
temporary `T(std::forward<Args>(args)...)` on line 261 is constructed AFTER
`move_backward` has run, so the argument is read from the already-shifted
buffer; this definition reads slot `j` at exactly that point. -/
def emplaceNoAllocAliasedElems (d : α) (elems : List α) (i_pos j : Nat) : List α :=
  if elems.length ≠ i_pos then
    let b1 := elems ++ [elems.getD (elems.length - 1) d]
    let b2 := moveBackwardLoop d b1 i_pos (elems.length - 1) elems.length
    b2.set i_pos (b2.getD j d)
  else
    elems ++ [elems.getD j d]

/-- `Vector::EmplaceNewAlloc` (src/vector.h:270-298), effect on the live
elements: the new element is constructed at index `i_pos` of the new block
first, then the prefix `[0, i_pos)` and the suffix `[i_pos, size)` are
relocated around it (`count_after = distance(pos, cend()) = size - i_pos`). -/
def emplaceNewAllocElems (elems : List α) (i_pos : Nat) (v : α) : List α :=
  elems.take i_pos ++ v :: (elems.drop i_pos).take (elems.length - i_pos)

/-- The capacity chosen by `Vector::EmplaceNewAlloc` (src/vector.h:273-279):
`1` if the vector is empty, else `size_ * 2`. -/
def emplaceNewCapacity (size : Nat) : Nat := if size = 0 then 1 else size * 2

/-- `Vector::Erase` (src/vector.h:227-235), effect on the live elements:
`std::move(begin() + i_pos + 1, end(), begin() + i_pos)`, then the last slot is
destroyed and `size_` decremented. -/
def eraseElems (d : α) (elems : List α) (i_pos : Nat) : List α :=
  (moveLoop d elems (i_pos + 1) elems.length i_pos).take (elems.length - 1)

/-- `Vector::Emplace` (src/vector.h:218-224) instrumented with whether the
no-spare-capacity path (`EmplaceNewAlloc`, which allocates) was taken. -/
def Vector.EmplaceInstr (d : α) (s : Vector α) (i_pos : Nat) (v : α) : Vector α × Bool :=
  if s.capacity > s.size then
    (⟨emplaceNoAllocElems d s.elems i_pos v, s.capacity⟩, false)
  else
    (⟨emplaceNewAllocElems s.elems i_pos v, emplaceNewCapacity s.size⟩, true)

/-- `Vector::Emplace` (src/vector.h:218-224). -/
def Vector.Emplace (d : α) (s : Vector α) (i_pos : Nat) (v : α) : Vector α :=
  (s.EmplaceInstr d i_pos v).1

/-- `Vector::Emplace` when the argument is a reference to the element at
index `j` of this same vector.  On the `EmplaceNewAlloc` path the new element
is constructed before any relocation (src/vector.h:285), so it reads the
original value of slot `j`. -/
def Vector.EmplaceAliased (d : α) (s : Vector α) (i_pos j : Nat) : Vector α :=
  if s.capacity > s.size then
    ⟨emplaceNoAllocAliasedElems d s.elems i_pos j, s.capacity⟩
  else
    ⟨emplaceNewAllocElems s.elems i_pos (s.elems.getD j d), emplaceNewCapacity s.size⟩

/-- `Vector::EmplaceBack` (src/vector.h:175-178): `Emplace(cend(), ...)`. -/
def Vector.EmplaceBack (d : α) (s : Vector α) (v : α) : Vector α :=
  s.Emplace d s.size v

/-- `Vector::PushBack` (src/vector.h:160-166): delegates to `EmplaceBack`. -/
def Vector.PushBack (d : α) (s : Vector α) (v : α) : Vector α :=
  s.EmplaceBack d v

/-- `Vector::PushBack` instrumented with whether an allocation occurred. -/
def Vector.PushBackInstr (d : α) (s : Vector α) (v : α) : Vector α × Bool :=
  s.EmplaceInstr d s.size v

/-- `Vector::Insert` (src/vector.h:237-242): delegates to `Emplace`. -/
def Vector.Insert (d : α) (s : Vector α) (i_pos : Nat) (v : α) : Vector α :=
  s.Emplace d i_pos v

/-- `Vector::Erase` (src/vector.h:227-235). -/
def Vector.Erase (d : α) (s : Vector α) (i_pos : Nat) : Vector α :=
  ⟨eraseElems d s.elems i_pos, s.capacity⟩

/-- `Vector::PopBack` (src/vector.h:168-173): no-op when empty, else the last
element is destroyed and dropped. -/
def Vector.PopBack (s : Vector α) : Vector α :=
  if s.size ≠ 0 then ⟨s.elems.take (s.size - 1), s.capacity⟩ else s

/-- `Vector::Reserve` (src/vector.h:202-216) instrumented with whether the
elements were relocated into a newly allocated block. -/
def Vector.ReserveInstr (s : Vector α) (new_capacity : Nat) : Vector α × Bool :=
  if new_capacity ≤ s.capacity then (s, false)
  else (⟨s.elems, new_capacity⟩, true)

/-- `Vector::Reserve` (src/vector.h:202-216). -/
def Vector.Reserve (s : Vector α) (new_capacity : Nat) : Vector α :=
  (s.ReserveInstr new_capacity).1

/-- `Vector::Resize` (src/vector.h:149-158): shrink destroys the tail;
grow reserves and value-constructs the new tail. -/
def Vector.Resize (d : α) (s : Vector α) (new_size : Nat) : Vector α :=
  if new_size < s.size then
    ⟨s.elems.take new_size, s.capacity⟩
  else
    let r := s.Reserve new_size
    ⟨r.elems ++ List.replicate (new_size - s.size) d, r.capacity⟩

/-- `Vector::Swap` (src/vector.h:197-200): exchanges block and size. -/
def Vector.Swap (s other : Vector α) : Vector α × Vector α := (other, s)

/-- `Vector::Vector(size_t)` (src/vector.h:98-103): a block of exactly `n`
slots holding `n` value-constructed elements (`d` is the value-constructed
element, e.g. `0` for `int`). -/
def Vector.constructN (d : α) (n : Nat) : Vector α := ⟨List.replicate n d, n⟩

/-- `Vector::Vector(const Vector&)` (src/vector.h:105-110): a block sized to
`other.size_` holding copies of the live elements. -/
def Vector.copyCtor (other : Vector α) : Vector α := ⟨other.elems, other.size⟩

/-- `Vector::Vector(Vector&&)` (src/vector.h:112-114): the default-constructed
destination swaps with the source; returns (destination, source-after). -/
def Vector.moveCtor (other : Vector α) : Vector α × Vector α := (other, ⟨[], 0⟩)

/-- Counts of element-level operations performed by a call: copy
constructions, copy assignments, destructions. -/
structure OpCounts where
  copyCtorCalls : Nat
  assignCalls : Nat
  destroyCalls : Nat
  deriving DecidableEq

/-- `Vector::operator=(const Vector&)` (src/vector.h:116-136) instrumented
with element-operation counts.  `sameObject` models the `this != &rhs` pointer
check; callers pass `sameObject = true` only with `rhs` the vector itself.
If `rhs.size_ > Capacity()`, a full temporary copy is built and swapped in
(the temporary then destroys this vector's former elements at scope exit);
otherwise storage is reused: the common prefix of length `min(size_, rhs.size_)`
is assigned, then the extra tail is copy-constructed or the excess destroyed. -/
def Vector.copyAssignCounted (s rhs : Vector α) (sameObject : Bool) : Vector α × OpCounts :=
  if sameObject then
    (s, ⟨0, 0, 0⟩)
  else if rhs.size > s.capacity then
    (⟨rhs.elems, rhs.size⟩, ⟨rhs.size, 0, s.size⟩)
  else
    let n := min s.size rhs.size
    let prefixAssigned := rhs.elems.take n ++ s.elems.drop n
    if rhs.size > s.size then
      (⟨prefixAssigned ++ rhs.elems.drop n, s.capacity⟩, ⟨rhs.size - s.size, n, 0⟩)
    else
      (⟨prefixAssigned.take rhs.size, s.capacity⟩, ⟨0, n, s.size - rhs.size⟩)

/-- `Vector::operator=(const Vector&)` for distinct objects. -/
def Vector.copyAssign (s rhs : Vector α) : Vector α :=
  (s.copyAssignCounted rhs false).1

/-- `Vector::operator=(Vector&&)` (src/vector.h:138-141): `Swap(rhs)`;
returns (destination-after, source-after). -/
def Vector.moveAssign (s rhs : Vector α) : Vector α × Vector α := (rhs, s)

/-- `n` successive `PushBack`s starting from a default-constructed vector. -/
def pushN (d : α) : Nat → Vector α
  | 0 => ⟨[], 0⟩
  | n + 1 => (pushN d n).PushBack d d

/-- The relocation-strategy selector of `Reserve` and `EmplaceNewAlloc`
(src/vector.h:208, 286): move exactly when
`is_nothrow_move_constructible_v<T> || !is_copy_constructible_v<T>`. -/
def relocatesByMove (nothrowMoveCtor copyCtorAvailable : Bool) : Bool :=
  nothrowMoveCtor || !copyCtorAvailable

/-- Which relocation primitive a call used. -/
inductive Reloc where
  | byMove
  | byCopy
  deriving DecidableEq

/-- `std::uninitialized_copy_n` from a buffer holding `xs`, with a copy
constructor that throws on invocation `k` whenever `throws k` (invocations
numbered from `k0`).  On a throw the partially constructed destination range
is destroyed and the exception propagates (`none`); the source buffer is only
read.  A successful copy yields a value equal to its source. -/
def copyNExc (throws : Nat → Bool) : Nat → List α → Option (List α)
  | _, [] => some []
  | k, x :: xs => if throws k then none else (copyNExc throws (k + 1) xs).map (x :: ·)

/-- `Vector::Reserve` (src/vector.h:202-216) with a possibly-throwing element
copy constructor.  `nothrowMove` / `copyAvail` are the compile-time traits of
`T`; the copy path numbers copy invocations `1, 2, ...` across the call.
Returns `error st` when an exception escapes, where `st` is the state of the
vector at that point: the relocation loop only reads the old buffer, and
`destroy_n` / `data_.Swap` run only after all copies succeed, so the escaping
state is exactly the pre-call state.  The move path is only reached for types
whose relocation is modelled as non-failing (C6 concerns the copy path). -/
def Vector.ReserveExc (nothrowMove copyAvail : Bool) (throws : Nat → Bool)
    (s : Vector α) (new_capacity : Nat) : Except (Vector α) (Vector α × Option Reloc) :=
  if new_capacity ≤ s.capacity then .ok (s, none)
  else if relocatesByMove nothrowMove copyAvail then
    .ok (⟨s.elems, new_capacity⟩, some .byMove)
  else
    match copyNExc throws 1 s.elems with
    | none => .error s
    | some copied => .ok (⟨copied, new_capacity⟩, some .byCopy)

/-- `Vector::Vector(const Vector&)` (src/vector.h:105-110) with a possibly
throwing copy constructor: `uninitialized_copy_n` of all live elements into a
fresh block of `other.size_` slots; `none` when a copy throws. -/
def Vector.copyCtorExc (throws : Nat → Bool) (other : Vector α) : Option (Vector α) :=
  match copyNExc throws 1 other.elems with
  | none => none
  | some copied => some ⟨copied, other.size⟩

/-- `Vector::operator=(const Vector&)` (src/vector.h:116-136) with a possibly
throwing element copy constructor, for distinct objects.  On the
`rhs.size_ > Capacity()` path, `Vector rhs_copy(rhs)` runs before `Swap`, so a
throw escapes with `*this` untouched (`error s`).  The reuse-storage path only
offers basic safety; its element-wise failures are outside C7's scope and are
modelled as succeeding. -/
def Vector.copyAssignExc (throws : Nat → Bool) (s rhs : Vector α) : Except (Vector α) (Vector α) :=
  if rhs.size > s.capacity then
    match Vector.copyCtorExc throws rhs with
    | none => .error s
    | some c => .ok c
  else
    .ok (s.copyAssign rhs)

/-! Characterizations of the buffer loops. -/

/-- `moveBackwardIter` over the range `[first, first + k)` with destination end
`first + k + 1` shifts that range one slot to the right; slot `first` keeps its
(moved-from, value-identical) element and nothing below `first` or above
`first + k` changes. -/
theorem moveBackwardIter_spec (d : α) :
    ∀ (k : Nat) (b : List α) (first : Nat), first + k < b.length →
      moveBackwardIter d k b (first + k) (first + k + 1) =
        b.take (first + 1) ++ (b.drop first).take k ++ b.drop (first + k + 1) := by
  intro k
  induction k with
  | zero =>
    intro b first h
    rw [moveBackwardIter]
    simp
  | succ k ih =>
    intro b first h
    rw [moveBackwardIter]
    rw [show first + (k + 1) - 1 = first + k from by omega,
        show first + (k + 1) + 1 - 1 = first + k + 1 from by omega]
    rw [ih (b.set (first + k + 1) (b.getD (first + k) d)) first (by rw [List.length_set]; omega)]
    have hfk : first + k < b.length := by omega
    have hfk1 : first + k + 1 < b.length := by omega
    -- the written slot lies outside the prefix that `take (first + 1)` keeps
    rw [List.set_take, List.set_eq_of_length_le (by simp)]
    -- the written slot lies outside the `k` elements kept from `drop first`
    rw [show (b.set (first + k + 1) (b.getD (first + k) d)).drop first
          = (b.drop first).set (k + 1) (b.getD (first + k) d) from by
        rw [List.drop_set, if_neg (by omega)]; congr 1; omega]
    rw [List.set_take, List.set_eq_of_length_le (by simp)]
    -- the tail from `first + k + 1` starts with the freshly written element
    rw [show (b.set (first + k + 1) (b.getD (first + k) d)).drop (first + k + 1)
          = (b.drop (first + k + 1)).set 0 (b.getD (first + k) d) from by
        rw [List.drop_set, if_neg (by omega)]; congr 1; omega]
    rw [List.drop_eq_getElem_cons hfk1, List.set_cons_zero]
    rw [show List.take (k + 1) (List.drop first b)
          = List.take k (List.drop first b) ++ ((List.drop first b)[k]?).toList from
        List.take_succ]
    rw [List.getElem?_drop, List.getElem?_eq_getElem (show first + k < b.length from hfk)]
    rw [List.getD_eq_getElem b d hfk]
    rw [show first + (k + 1) + 1 = first + k + 1 + 1 from by omega]
    simp [List.append_assoc]

/-- `moveIter` over the range `[dfirst + 1, dfirst + 1 + k)` with destination
`dfirst` shifts that range one slot to the left; slot `dfirst + k` keeps its
(moved-from, value-identical) element and nothing else changes. -/
theorem moveIter_spec (d : α) :
    ∀ (k : Nat) (b : List α) (dfirst : Nat), dfirst + 1 + k ≤ b.length →
      moveIter d k b (dfirst + 1) dfirst =
        b.take dfirst ++ (b.drop (dfirst + 1)).take k ++ b.drop (dfirst + k) := by
  intro k
  induction k with
  | zero =>
    intro b dfirst h
    rw [moveIter]
    simp
  | succ k ih =>
    intro b dfirst h
    rw [moveIter]
    rw [ih (b.set dfirst (b.getD (dfirst + 1) d)) (dfirst + 1) (by rw [List.length_set]; omega)]
    have hd1 : dfirst + 1 < b.length := by omega
    -- prefix `take (dfirst + 1)` of the written buffer: old prefix plus the moved value
    rw [List.take_succ]
    rw [show (b.set dfirst (b.getD (dfirst + 1) d)).take dfirst = b.take dfirst from by
        rw [List.set_take, List.set_eq_of_length_le (by simp)]]
    rw [show (b.set dfirst (b.getD (dfirst + 1) d))[dfirst]? = some (b.getD (dfirst + 1) d) from by
        rw [List.getElem?_set_self (by omega)]]
    -- the written slot is below every later read
    rw [show (b.set dfirst (b.getD (dfirst + 1) d)).drop (dfirst + 1 + 1)
          = b.drop (dfirst + 1 + 1) from List.drop_set_of_lt _ _ (by omega)]
    rw [show (b.set dfirst (b.getD (dfirst + 1) d)).drop (dfirst + 1 + k)
          = b.drop (dfirst + 1 + k) from List.drop_set_of_lt _ _ (by omega)]
    rw [List.getD_eq_getElem b d hd1]
    rw [show List.take (k + 1) (List.drop (dfirst + 1) b)
          = b[dfirst + 1] :: (b.drop (dfirst + 1 + 1)).take k from by
        rw [List.drop_eq_getElem_cons hd1]; rfl]
    rw [show dfirst + (k + 1) = dfirst + 1 + k from by omega]
    simp [List.append_assoc]

/-- The no-allocation emplace path computes an insertion at `i_pos` (for a
non-aliasing argument). -/
theorem emplaceNoAllocElems_eq (d : α) (elems : List α) (i_pos : Nat) (v : α)
    (h : i_pos ≤ elems.length) :
    emplaceNoAllocElems d elems i_pos v = elems.take i_pos ++ v :: elems.drop i_pos := by
  rcases Nat.eq_or_lt_of_le h with heq | hlt
  · rw [emplaceNoAllocElems, if_neg (by omega)]
    rw [heq, List.take_length, List.drop_length]
  · rw [emplaceNoAllocElems, if_pos (by omega)]
    obtain ⟨k, hK⟩ : ∃ k, elems.length = i_pos + k + 1 := ⟨elems.length - i_pos - 1, by omega⟩
    rw [show elems.length - 1 = i_pos + k from by omega]
    rw [moveBackwardLoop, Nat.add_sub_cancel_left, hK]
    rw [moveBackwardIter_spec d k (elems ++ [elems.getD (i_pos + k) d]) i_pos (by simp; omega)]
    rw [List.take_append_of_le_length (by omega)]
    rw [List.drop_append_of_le_length (show i_pos ≤ elems.length from by omega)]
    rw [List.take_append_of_le_length (by simp; omega)]
    rw [List.drop_append_of_le_length (show i_pos + k + 1 ≤ elems.length from by omega)]
    rw [show i_pos + k + 1 = elems.length from by omega, List.drop_length, List.nil_append]
    have hdrop : elems.drop (i_pos + k) = [elems.getD (i_pos + k) d] := by
      rw [List.drop_eq_getElem_cons (show i_pos + k < elems.length from by omega)]
      rw [List.drop_of_length_le (show elems.length ≤ i_pos + k + 1 from by omega)]
      rw [List.getD_eq_getElem elems d (show i_pos + k < elems.length from by omega)]
    have htail : (elems.drop i_pos).take k ++ [elems.getD (i_pos + k) d] = elems.drop i_pos := by
      conv_rhs => rw [← List.take_append_drop k (elems.drop i_pos)]
      rw [List.drop_drop, hdrop]
    rw [List.append_assoc, htail]
    rw [List.set_append_left _ _ (show i_pos < (elems.take (i_pos + 1)).length from by
        rw [List.length_take]; omega)]
    rw [List.take_succ, List.getElem?_eq_getElem hlt]
    rw [List.set_append_right _ _ (show (elems.take i_pos).length ≤ i_pos from by
        rw [List.length_take]; omega)]
    rw [show i_pos - (elems.take i_pos).length = 0 from by rw [List.length_take]; omega]
    simp

/-- The reallocation emplace path computes an insertion at `i_pos`. -/
theorem emplaceNewAllocElems_eq (elems : List α) (i_pos : Nat) (v : α) :
    emplaceNewAllocElems elems i_pos v = elems.take i_pos ++ v :: elems.drop i_pos := by
  rw [emplaceNewAllocElems,
      List.take_of_length_le (show (elems.drop i_pos).length ≤ elems.length - i_pos from by
        rw [List.length_drop])]

/-- `Erase`'s left-shift followed by the size decrement removes exactly the
element at `i_pos`. -/
theorem eraseElems_eq (d : α) (elems : List α) (i_pos : Nat) (h : i_pos < elems.length) :
    eraseElems d elems i_pos = elems.take i_pos ++ elems.drop (i_pos + 1) := by
  obtain ⟨k, hK⟩ : ∃ k, elems.length = i_pos + 1 + k := ⟨elems.length - i_pos - 1, by omega⟩
  rw [eraseElems, moveLoop]
  rw [show elems.length - (i_pos + 1) = k from by omega]
  rw [moveIter_spec d k elems i_pos (by omega)]
  rw [List.take_of_length_le (show (elems.drop (i_pos + 1)).length ≤ k from by
        rw [List.length_drop]; omega)]
  rw [List.append_assoc]
  rw [List.take_append_eq_append_take]
  rw [List.take_of_length_le (show (elems.take i_pos).length ≤ elems.length - 1 from by
        rw [List.length_take]; omega)]
  rw [List.take_append_eq_append_take]
  rw [List.take_of_length_le (show (elems.drop (i_pos + 1)).length
        ≤ elems.length - 1 - (elems.take i_pos).length from by
        rw [List.length_drop, List.length_take]; omega)]
  rw [show elems.length - 1 - (elems.take i_pos).length - (elems.drop (i_pos + 1)).length = 0
      from by rw [List.length_drop, List.length_take]; omega]
  simp

/-! Vector-level facts about `Emplace`, `PushBack`, `Erase`,
`Reserve`, `Resize` and the assignment operators. -/

/-- `Emplace` at a valid position inserts the value there. -/
theorem Emplace_elems (d : α) (s : Vector α) (i_pos : Nat) (v : α) (h : i_pos ≤ s.size) :
    (s.Emplace d i_pos v).elems = s.elems.take i_pos ++ v :: s.elems.drop i_pos := by
  by_cases hc : s.capacity > s.size
  · simp only [Vector.Emplace, Vector.EmplaceInstr, if_pos hc]
    exact emplaceNoAllocElems_eq d s.elems i_pos v h
  · simp only [Vector.Emplace, Vector.EmplaceInstr, if_neg hc]
    exact emplaceNewAllocElems_eq s.elems i_pos v

/-- The capacity after `Emplace`: unchanged when spare capacity existed, the
doubled (or 1) reallocation capacity otherwise. -/
theorem Emplace_capacity (d : α) (s : Vector α) (i_pos : Nat) (v : α) :
    (s.Emplace d i_pos v).capacity =
      if s.size < s.capacity then s.capacity else emplaceNewCapacity s.size := by
  by_cases hc : s.capacity > s.size
  · simp only [Vector.Emplace, Vector.EmplaceInstr, if_pos hc]
  · simp only [Vector.Emplace, Vector.EmplaceInstr, if_neg hc]

/-- `Emplace` at a valid position grows the size by one. -/
theorem Emplace_size (d : α) (s : Vector α) (i_pos : Nat) (v : α) (h : i_pos ≤ s.size) :
    (s.Emplace d i_pos v).size = s.size + 1 := by
  rw [Vector.size, Emplace_elems d s i_pos v h]
  simp only [List.length_append, List.length_take, List.length_cons, List.length_drop]
  have : s.elems.length = s.size := rfl
  omega

/-- `PushBack` appends the value to the live elements. -/
theorem PushBack_elems (d : α) (s : Vector α) (v : α) :
    (s.PushBack d v).elems = s.elems ++ [v] := by
  rw [Vector.PushBack, Vector.EmplaceBack, Emplace_elems d s s.size v (Nat.le_refl _)]
  rw [show s.size = s.elems.length from rfl, List.take_length, List.drop_length]

/-- `PushBack` grows the size by one. -/
theorem PushBack_size (d : α) (s : Vector α) (v : α) :
    (s.PushBack d v).size = s.size + 1 := by
  rw [Vector.size, PushBack_elems]
  simp [Vector.size]

/-- The capacity after `PushBack`. -/
theorem PushBack_capacity (d : α) (s : Vector α) (v : α) :
    (s.PushBack d v).capacity =
      if s.size < s.capacity then s.capacity else emplaceNewCapacity s.size :=
  Emplace_capacity d s s.size v

/-- `Erase` at a valid position removes the element there. -/
theorem Erase_elems (d : α) (s : Vector α) (i_pos : Nat) (h : i_pos < s.size) :
    (s.Erase d i_pos).elems = s.elems.take i_pos ++ s.elems.drop (i_pos + 1) := by
  rw [Vector.Erase]
  exact eraseElems_eq d s.elems i_pos h

/-- `Erase` at a valid position shrinks the size by one. -/
theorem Erase_size (d : α) (s : Vector α) (i_pos : Nat) (h : i_pos < s.size) :
    (s.Erase d i_pos).size = s.size - 1 := by
  rw [Vector.size, Erase_elems d s i_pos h]
  simp only [List.length_append, List.length_take, List.length_drop]
  have : s.elems.length = s.size := rfl
  omega

/-- The result of `copyAssign` on distinct objects: the target holds `rhs`'s
elements, its capacity grows to `rhs.size` exactly when a reallocation was
forced. -/
theorem copyAssign_eq (s rhs : Vector α) :
    s.copyAssign rhs =
      ⟨rhs.elems, if rhs.size > s.capacity then rhs.size else s.capacity⟩ := by
  rw [Vector.copyAssign, Vector.copyAssignCounted]
  rw [if_neg (by simp)]
  by_cases hgrow : rhs.size > s.capacity
  · rw [if_pos hgrow, if_pos hgrow]
  · rw [if_neg hgrow, if_neg hgrow]
    by_cases hlong : rhs.size > s.size
    · rw [if_pos hlong]
      have hmin : min s.size rhs.size = s.size := by omega
      rw [hmin]
      rw [show s.elems.drop s.size = [] from by
        rw [show s.size = s.elems.length from rfl, List.drop_length]]
      rw [List.append_nil]
      rw [show rhs.elems.take s.size ++ rhs.elems.drop s.size = rhs.elems from
        List.take_append_drop _ _]
    · rw [if_neg hlong]
      have hmin : min s.size rhs.size = rhs.size := by omega
      rw [hmin]
      rw [List.take_append_eq_append_take]
      rw [List.take_of_length_le (show (rhs.elems.take rhs.size).length ≤ rhs.size from by
        rw [List.length_take]; omega)]
      rw [List.take_of_length_le (show rhs.elems.length ≤ rhs.size from Nat.le_refl _)]
      rw [show rhs.size - rhs.elems.length = 0 from by simp [Vector.size]]
      simp

/-- `Reserve` never changes the live elements. -/
theorem Reserve_elems (s : Vector α) (n : Nat) : (s.Reserve n).elems = s.elems := by
  rw [Vector.Reserve, Vector.ReserveInstr]
  by_cases h : n ≤ s.capacity
  · rw [if_pos h]
  · rw [if_neg h]

/-- The capacity after `Reserve`. -/
theorem Reserve_capacity (s : Vector α) (n : Nat) :
    (s.Reserve n).capacity = if n ≤ s.capacity then s.capacity else n := by
  rw [Vector.Reserve, Vector.ReserveInstr]
  by_cases h : n ≤ s.capacity
  · rw [if_pos h, if_pos h]
  · rw [if_neg h, if_neg h]

/-- `Emplace` at a valid position preserves the invariant (it even
establishes it without assuming it, since both paths end with
`size + 1 <= capacity`). -/
theorem Wf_Emplace (d : α) (s : Vector α) (i_pos : Nat) (v : α) (h : i_pos ≤ s.size) :
    (s.Emplace d i_pos v).Wf := by
  rw [Vector.Wf, Emplace_size d s i_pos v h, Emplace_capacity]
  by_cases hc : s.size < s.capacity
  · rw [if_pos hc]; omega
  · rw [if_neg hc, emplaceNewCapacity]
    by_cases h0 : s.size = 0
    · rw [if_pos h0]; omega
    · rw [if_neg h0]; omega

/-- `pushN` produces a vector of size `n`. -/
theorem pushN_size (d : α) (n : Nat) : (pushN d n).size = n := by
  induction n with
  | zero => rfl
  | succ n ih => rw [pushN, PushBack_size, ih]

/-- Starting from empty, after `n >= 1` pushes the capacity is the least
power of two that is at least `n`. -/
theorem pushN_capacity (d : α) : ∀ n, 1 ≤ n → (pushN d n).capacity = 2 ^ Nat.clog 2 n := by
  intro n
  induction n with
  | zero => intro h; omega
  | succ n ih =>
    intro _
    by_cases hn : n = 0
    · subst hn
      rw [pushN, pushN, PushBack_capacity]
      rw [if_neg (show ¬(Vector.size (⟨[], 0⟩ : Vector α) < Vector.capacity ⟨[], 0⟩) from by
        rw [show Vector.capacity (⟨[], 0⟩ : Vector α) = 0 from rfl]; omega)]
      rw [emplaceNewCapacity, if_pos (show Vector.size (⟨[], 0⟩ : Vector α) = 0 from rfl)]
      simp [Nat.clog_one_right]
    · have hge : 1 ≤ n := by omega
      have hcap := ih hge
      have hsz := pushN_size d n
      rw [pushN, PushBack_capacity, hsz, hcap]
      by_cases hlt : n < 2 ^ Nat.clog 2 n
      · rw [if_pos hlt]
        have h1 : Nat.clog 2 (n + 1) = Nat.clog 2 n := by
          apply Nat.le_antisymm
          · exact (Nat.le_pow_iff_clog_le (by norm_num)).mp (by omega)
          · exact Nat.clog_mono_right 2 (by omega)
        rw [h1]
      · rw [if_neg hlt]
        have hle : n ≤ 2 ^ Nat.clog 2 n := Nat.le_pow_clog (by norm_num) n
        have heq : n = 2 ^ Nat.clog 2 n := by omega
        rw [emplaceNewCapacity, if_neg hn]
        have h1 : Nat.clog 2 (n + 1) = Nat.clog 2 n + 1 := by
          apply Nat.le_antisymm
          · refine (Nat.le_pow_iff_clog_le (by norm_num)).mp ?_
            rw [Nat.pow_succ]
            omega
          · by_contra hcon
            push_neg at hcon
            have hc2 : n + 1 ≤ 2 ^ Nat.clog 2 n :=
              (Nat.le_pow_iff_clog_le (by norm_num)).mpr (by omega)
            omega
        rw [h1, Nat.pow_succ]
        omega

/-- `copyNExc` succeeds (returning values equal to the sources) exactly when
none of the invocations `k, k + 1, ..., k + length - 1` throws. -/
theorem copyNExc_eq (throws : Nat → Bool) :
    ∀ (xs : List α) (k : Nat),
      copyNExc throws k xs =
        if (List.range' k xs.length).all (fun j => !throws j) then some xs else none := by
  intro xs
  induction xs with
  | nil => intro k; rfl
  | cons x xs ih =>
    intro k
    rw [copyNExc]
    rw [show List.range' k (x :: xs).length = k :: List.range' (k + 1) xs.length from rfl]
    rw [List.all_cons]
    by_cases ht : throws k = true
    · rw [if_pos ht, ht]
      rfl
    · have hb : throws k = false := by simpa using ht
      rw [if_neg ht, ih (k + 1)]
      by_cases hall : (List.range' (k + 1) xs.length).all (fun j => !throws j) = true
      · simp [hall, hb]
      · have hall2 : (List.range' (k + 1) xs.length).all (fun j => !throws j) = false :=
          Bool.eq_false_iff.mpr hall
        simp [hall2, hb]

/-! The claims. -/

/-- C1: after `PushBack(v)` on any sequence of size `s` (the empty one
included), the new size is `s + 1`, the new capacity is at least `s + 1`,
the element at index `s` equals `v`, and the element at any index `i < s`
is unchanged. -/
theorem C1_push_back_postcondition (d : α) (s : Vector α) (v : α) :
    (s.PushBack d v).size = s.size + 1 ∧
    s.size + 1 ≤ (s.PushBack d v).capacity ∧
    (s.PushBack d v).elems.getD s.size d = v ∧
    ∀ i, i < s.size → (s.PushBack d v).elems.getD i d = s.elems.getD i d := by
  refine ⟨PushBack_size d s v, ?_, ?_, ?_⟩
  · rw [PushBack_capacity]
    by_cases hc : s.size < s.capacity
    · rw [if_pos hc]; omega
    · rw [if_neg hc, emplaceNewCapacity]
      by_cases h0 : s.size = 0
      · rw [if_pos h0]; omega
      · rw [if_neg h0]; omega
  · rw [PushBack_elems, List.getD_eq_getElem?_getD,
        List.getElem?_append_right (show s.elems.length ≤ s.size from Nat.le_refl _)]
    rw [show s.size - s.elems.length = 0 from by simp [Vector.size]]
    rfl
  · intro i hi
    rw [PushBack_elems, List.getD_eq_getElem?_getD,
        List.getElem?_append_left (show i < s.elems.length from hi),
        ← List.getD_eq_getElem?_getD]

/-- Witness for C1: pushing `9` onto `[7, 8]` (capacity 2, forcing a
reallocation), with the unchanged-prefix part instantiated at index 1. -/
theorem C1_push_back_postcondition_witness :
    ((⟨[7, 8], 2⟩ : Vector Nat).PushBack 0 9).size = (⟨[7, 8], 2⟩ : Vector Nat).size + 1 ∧
    (⟨[7, 8], 2⟩ : Vector Nat).size + 1 ≤ ((⟨[7, 8], 2⟩ : Vector Nat).PushBack 0 9).capacity ∧
    ((⟨[7, 8], 2⟩ : Vector Nat).PushBack 0 9).elems.getD (⟨[7, 8], 2⟩ : Vector Nat).size 0 = 9 ∧
    1 < (⟨[7, 8], 2⟩ : Vector Nat).size ∧
    ((⟨[7, 8], 2⟩ : Vector Nat).PushBack 0 9).elems.getD 1 0 =
      (⟨[7, 8], 2⟩ : Vector Nat).elems.getD 1 0 := by
  have h := C1_push_back_postcondition 0 (⟨[7, 8], 2⟩ : Vector Nat) 9
  exact ⟨h.1, h.2.1, h.2.2.1, by decide, h.2.2.2 1 (by decide)⟩

/-- C3 (evaluation of the code at the failing input): with spare capacity,
inserting at the front of `[10, 20]` a reference to the element at index 1
(value `20`) yields `[10, 10, 20]`, not the `[20, 10, 20]` the claim requires:
the temporary `T(args...)` on src/vector.h:261 is constructed only after
`move_backward` has shifted `[pos, size)` right, so an argument aliasing an
element at an index `>= pos` reads the already-shifted buffer. -/
theorem C3_insert_aliasing_eval :
    ((⟨[10, 20], 3⟩ : Vector Nat).EmplaceAliased 0 0 1).elems = [10, 10, 20] ∧
    ((⟨[10, 20], 3⟩ : Vector Nat).EmplaceAliased 0 0 1).elems ≠ [20, 10, 20] := by
  exact ⟨rfl, by decide⟩

/-- C5: `Insert(pos, v)` immediately followed by `Erase(pos)` restores the
original sequence exactly: same size, same elements, same order (for any
`pos` in `[0, size]`). -/
theorem C5_insert_erase_roundtrip (d : α) (s : Vector α) (i_pos : Nat) (v : α)
    (h : i_pos ≤ s.size) :
    ((s.Insert d i_pos v).Erase d i_pos).elems = s.elems ∧
    ((s.Insert d i_pos v).Erase d i_pos).size = s.size := by
  have hins : (s.Insert d i_pos v).elems = s.elems.take i_pos ++ v :: s.elems.drop i_pos :=
    Emplace_elems d s i_pos v h
  have hsz : (s.Insert d i_pos v).size = s.size + 1 := Emplace_size d s i_pos v h
  have hlen : i_pos ≤ s.elems.length := h
  have helems : ((s.Insert d i_pos v).Erase d i_pos).elems = s.elems := by
    rw [Erase_elems d (s.Insert d i_pos v) i_pos (by omega), hins]
    rw [List.take_append_eq_append_take]
    rw [List.take_of_length_le (show (s.elems.take i_pos).length ≤ i_pos from by
        rw [List.length_take]; omega)]
    rw [show i_pos - (s.elems.take i_pos).length = 0 from by rw [List.length_take]; omega]
    rw [List.take_zero, List.append_nil]
    rw [List.drop_append_eq_append_drop]
    rw [List.drop_of_length_le (show (s.elems.take i_pos).length ≤ i_pos + 1 from by
        rw [List.length_take]; omega)]
    rw [show i_pos + 1 - (s.elems.take i_pos).length = 1 from by rw [List.length_take]; omega]
    rw [List.drop_one, List.tail_cons, List.nil_append]
    exact List.take_append_drop i_pos s.elems
  refine ⟨helems, ?_⟩
  rw [Vector.size, helems]
  rfl

/-- Witness for C5: the spec scenario `[1, 2, 3]`, insert `99` at position 1,
then erase position 1. -/
theorem C5_insert_erase_roundtrip_witness :
    1 ≤ (⟨[1, 2, 3], 3⟩ : Vector Nat).size ∧
    ((((⟨[1, 2, 3], 3⟩ : Vector Nat).Insert 0 1 99).Erase 0 1).elems
        = (⟨[1, 2, 3], 3⟩ : Vector Nat).elems ∧
     (((⟨[1, 2, 3], 3⟩ : Vector Nat).Insert 0 1 99).Erase 0 1).size
        = (⟨[1, 2, 3], 3⟩ : Vector Nat).size) :=
  ⟨by decide, C5_insert_erase_roundtrip 0 ⟨[1, 2, 3], 3⟩ 1 99 (by decide)⟩

/-- C8: `Reserve(n)` with `n <= Capacity()` is a no-op: same capacity, same
size and elements, and no relocation of any element is performed. -/
theorem C8_reserve_noop (s : Vector α) (new_capacity : Nat) (h : new_capacity ≤ s.capacity) :
    s.ReserveInstr new_capacity = (s, false) := by
  rw [Vector.ReserveInstr, if_pos h]

/-- Witness for C8 at a concrete input. -/
theorem C8_reserve_noop_witness :
    2 ≤ (⟨[5], 2⟩ : Vector Nat).capacity ∧
    (⟨[5], 2⟩ : Vector Nat).ReserveInstr 2 = (⟨[5], 2⟩, false) :=
  ⟨by decide, C8_reserve_noop ⟨[5], 2⟩ 2 (by decide)⟩

/-- C9 counterexample: move-assigning `[1]` into a destination holding `[2]`
leaves the source with one live element (the destination's former one), so
the claim that the source is left with no live elements of its own is false
at this input. -/
theorem C9_counterexample :
    ((⟨[2], 1⟩ : Vector Nat).moveAssign ⟨[1], 1⟩).2.size ≠ 0 := by
  decide

/-- C9 (amended): move construction and move assignment both give the
destination the source's prior size, capacity and elements.  Move assignment
is a swap, so the source ends with the destination's prior state (not
necessarily empty); the two vectors together still own exactly the elements
they owned before, each exactly once, so destroying both performs no double
destruction and no double free.  Move construction specifically leaves the
source empty with capacity 0. -/
theorem C9_move_transfer_amended (dst src : Vector α) :
    (dst.moveAssign src).1 = src ∧
    (dst.moveAssign src).2 = dst ∧
    (dst.moveAssign src).1.elems ++ (dst.moveAssign src).2.elems = src.elems ++ dst.elems ∧
    (Vector.moveCtor src).1 = src ∧
    (Vector.moveCtor src).2 = (⟨[], 0⟩ : Vector α) :=
  ⟨rfl, rfl, rfl, rfl, rfl⟩

/-- C10: copy-assigning a vector to itself (`this == &rhs`) leaves it exactly
unchanged and performs no element copy construction, no element assignment
and no element destruction. -/
theorem C10_self_assign_noop (s : Vector α) :
    s.copyAssignCounted s true = (s, ⟨0, 0, 0⟩) := by
  rw [Vector.copyAssignCounted, if_pos rfl]

/-- C2: given the invariant `0 <= size <= capacity` before the call (`hs`,
`ht`), every public operation that returns normally preserves it:
construction, copy construction, move construction (both objects), copy and
move assignment (both objects), resize, reserve, push back, emplace back,
pop back, emplace and insert (at any valid position), erase (at any valid
position) and swap (both objects) — with no restriction on `s`, so the empty
vector is covered by every conjunct. -/
theorem C2_invariant_preserved (d v : α) (s t : Vector α) (n : Nat)
    (hs : s.Wf) (ht : t.Wf) :
    (Vector.constructN d n).Wf ∧
    (Vector.copyCtor s).Wf ∧
    (Vector.moveCtor s).1.Wf ∧ (Vector.moveCtor s).2.Wf ∧
    (s.copyAssign t).Wf ∧
    (s.moveAssign t).1.Wf ∧ (s.moveAssign t).2.Wf ∧
    (s.Resize d n).Wf ∧
    (s.Reserve n).Wf ∧
    (s.PushBack d v).Wf ∧
    (s.EmplaceBack d v).Wf ∧
    s.PopBack.Wf ∧
    (∀ i_pos, i_pos ≤ s.size → (s.Emplace d i_pos v).Wf) ∧
    (∀ i_pos, i_pos ≤ s.size → (s.Insert d i_pos v).Wf) ∧
    (∀ e_pos, e_pos < s.size → (s.Erase d e_pos).Wf) ∧
    (s.Swap t).1.Wf ∧ (s.Swap t).2.Wf := by
  have hsl : s.elems.length = s.size := rfl
  have htl : t.elems.length = t.size := rfl
  have hsc : s.size ≤ s.capacity := hs
  refine ⟨?_, ?_, hs, ?_, ?_, ht, hs, ?_, ?_, ?_, ?_, ?_, ?_, ?_, ?_, ht, hs⟩
  · show (List.replicate n d).length ≤ n
    rw [List.length_replicate]
  · show s.elems.length ≤ s.size
    omega
  · show ([] : List α).length ≤ 0
    rfl
  · rw [Vector.Wf, copyAssign_eq]
    by_cases hgrow : t.size > s.capacity
    · rw [if_pos hgrow]
      show t.elems.length ≤ t.size
      omega
    · rw [if_neg hgrow]
      show t.elems.length ≤ s.capacity
      omega
  · rw [Vector.Wf, Vector.Resize]
    by_cases hsh : n < s.size
    · rw [if_pos hsh]
      show (s.elems.take n).length ≤ s.capacity
      rw [List.length_take]
      omega
    · rw [if_neg hsh]
      show ((s.Reserve n).elems ++ List.replicate (n - s.size) d).length ≤ (s.Reserve n).capacity
      rw [List.length_append, List.length_replicate, Reserve_elems, Reserve_capacity]
      by_cases hle : n ≤ s.capacity
      · rw [if_pos hle]; omega
      · rw [if_neg hle]; omega
  · rw [Vector.Wf, Vector.size, Reserve_elems, Reserve_capacity]
    by_cases hle : n ≤ s.capacity
    · rw [if_pos hle]; omega
    · rw [if_neg hle]; omega
  · exact Wf_Emplace d s s.size v (Nat.le_refl _)
  · exact Wf_Emplace d s s.size v (Nat.le_refl _)
  · rw [Vector.Wf, Vector.PopBack]
    by_cases h0 : s.size ≠ 0
    · rw [if_pos h0]
      show (s.elems.take (s.size - 1)).length ≤ s.capacity
      rw [List.length_take]
      omega
    · rw [if_neg h0]
      exact hs
  · intro i_pos hi
    exact Wf_Emplace d s i_pos v hi
  · intro i_pos hi
    exact Wf_Emplace d s i_pos v hi
  · intro e_pos he
    have h1 : (s.Erase d e_pos).size = s.size - 1 := Erase_size d s e_pos he
    have h2 : (s.Erase d e_pos).capacity = s.capacity := rfl
    rw [Vector.Wf, h1, h2]
    omega

/-- Witness for C2 at concrete inputs (`s = [1, 2]` with capacity 3,
`t = [9]` with capacity 1, `n = 2`), with the emplace, insert and erase
parts instantiated at positions 1, 1 and 0. -/
theorem C2_invariant_preserved_witness :
    ((⟨[1, 2], 3⟩ : Vector Nat).Wf ∧ (⟨[9], 1⟩ : Vector Nat).Wf) ∧
    ((Vector.constructN 0 2).Wf ∧
     (Vector.copyCtor (⟨[1, 2], 3⟩ : Vector Nat)).Wf ∧
     (Vector.moveCtor (⟨[1, 2], 3⟩ : Vector Nat)).1.Wf ∧
     (Vector.moveCtor (⟨[1, 2], 3⟩ : Vector Nat)).2.Wf ∧
     ((⟨[1, 2], 3⟩ : Vector Nat).copyAssign ⟨[9], 1⟩).Wf ∧
     ((⟨[1, 2], 3⟩ : Vector Nat).moveAssign ⟨[9], 1⟩).1.Wf ∧
     ((⟨[1, 2], 3⟩ : Vector Nat).moveAssign ⟨[9], 1⟩).2.Wf ∧
     ((⟨[1, 2], 3⟩ : Vector Nat).Resize 0 2).Wf ∧
     ((⟨[1, 2], 3⟩ : Vector Nat).Reserve 2).Wf ∧
     ((⟨[1, 2], 3⟩ : Vector Nat).PushBack 0 7).Wf ∧
     ((⟨[1, 2], 3⟩ : Vector Nat).EmplaceBack 0 7).Wf ∧
     (⟨[1, 2], 3⟩ : Vector Nat).PopBack.Wf ∧
     (1 ≤ (⟨[1, 2], 3⟩ : Vector Nat).size ∧ ((⟨[1, 2], 3⟩ : Vector Nat).Emplace 0 1 7).Wf) ∧
     (1 ≤ (⟨[1, 2], 3⟩ : Vector Nat).size ∧ ((⟨[1, 2], 3⟩ : Vector Nat).Insert 0 1 7).Wf) ∧
     (0 < (⟨[1, 2], 3⟩ : Vector Nat).size ∧ ((⟨[1, 2], 3⟩ : Vector Nat).Erase 0 0).Wf) ∧
     ((⟨[1, 2], 3⟩ : Vector Nat).Swap ⟨[9], 1⟩).1.Wf ∧
     ((⟨[1, 2], 3⟩ : Vector Nat).Swap ⟨[9], 1⟩).2.Wf) := by
  have h := C2_invariant_preserved 0 7 (⟨[1, 2], 3⟩ : Vector Nat) ⟨[9], 1⟩ 2
    (by decide) (by decide)
  obtain ⟨h1, h2, h3, h4, h5, h6, h7, h8, h9, h10, h11, h12, h13, h14, h15, h16, h17⟩ := h
  exact ⟨⟨by decide, by decide⟩,
    h1, h2, h3, h4, h5, h6, h7, h8, h9, h10, h11, h12,
    ⟨by decide, h13 1 (by decide)⟩, ⟨by decide, h14 1 (by decide)⟩,
    ⟨by decide, h15 0 (by decide)⟩, h16, h17⟩

/-- C4: starting from an empty sequence, after `n >= 1` pushes the capacity
is the least power of two at least `n` (so the capacities allocated on
insufficient-capacity pushes are exactly `1, 2, 4, 8, ...`); a push that fits
within the current capacity performs no allocation and leaves the capacity
unchanged; a push without spare capacity allocates exactly double the current
capacity (or 1 when the sequence is empty). -/
theorem C4_push_back_growth (d : α) :
    (∀ n, (pushN d n).size = n) ∧
    (∀ n, 1 ≤ n → (pushN d n).capacity = 2 ^ Nat.clog 2 n) ∧
    (∀ (s : Vector α) (v : α), s.size < s.capacity →
      (s.PushBackInstr d v).2 = false ∧ (s.PushBack d v).capacity = s.capacity) ∧
    (∀ (s : Vector α) (v : α), s.size = s.capacity →
      (s.PushBackInstr d v).2 = true ∧
      (s.PushBack d v).capacity = if s.capacity = 0 then 1 else 2 * s.capacity) := by
  refine ⟨pushN_size d, pushN_capacity d, ?_, ?_⟩
  · intro s v hc
    constructor
    · rw [Vector.PushBackInstr, Vector.EmplaceInstr, if_pos hc]
    · rw [PushBack_capacity, if_pos hc]
  · intro s v hc
    constructor
    · rw [Vector.PushBackInstr, Vector.EmplaceInstr, if_neg (by omega)]
    · rw [PushBack_capacity, if_neg (by omega), emplaceNewCapacity, hc]
      by_cases h0 : s.capacity = 0
      · rw [if_pos h0, if_pos h0]
      · rw [if_neg h0, if_neg h0]
        omega

/-- Witness for C4: after 5 pushes the capacity is `2 ^ clog 2 5 = 8`, and a
push on `[3]` with capacity 2 does not allocate. -/
theorem C4_push_back_growth_witness :
    (1 : Nat) ≤ 5 ∧ (pushN (0 : Nat) 5).capacity = 2 ^ Nat.clog 2 5 ∧
    (⟨[3], 2⟩ : Vector Nat).size < (⟨[3], 2⟩ : Vector Nat).capacity ∧
    ((⟨[3], 2⟩ : Vector Nat).PushBackInstr 0 7).2 = false :=
  ⟨by decide, (C4_push_back_growth 0).2.1 5 (by decide), by decide,
   ((C4_push_back_growth 0).2.2.1 ⟨[3], 2⟩ 7 (by decide)).1⟩

/-- C6: `Reserve` on a growth call relocates by move exactly when the element
type's move construction cannot throw or the type is not copy-constructible
(`relocatesByMove`), and by copy otherwise; on the copy path, if any copy
invocation throws, the exception escapes with the vector exactly in its
pre-reserve state (`error s`: same size, capacity and elements). -/
theorem C6_reserve_relocation_safety (nothrowMove copyAvail : Bool) (throws : Nat → Bool)
    (s : Vector α) (new_capacity : Nat) (h : s.capacity < new_capacity) :
    Vector.ReserveExc nothrowMove copyAvail throws s new_capacity =
      if relocatesByMove nothrowMove copyAvail then
        .ok (⟨s.elems, new_capacity⟩, some .byMove)
      else if (List.range' 1 s.size).all (fun j => !throws j) then
        .ok (⟨s.elems, new_capacity⟩, some .byCopy)
      else
        .error s := by
  rw [Vector.ReserveExc, if_neg (by omega)]
  by_cases hm : relocatesByMove nothrowMove copyAvail = true
  · rw [if_pos hm, if_pos hm]
  · rw [if_neg hm, if_neg hm]
    rw [copyNExc_eq throws s.elems 1]
    by_cases hall : (List.range' 1 s.elems.length).all (fun j => !throws j) = true
    · rw [if_pos hall,
          if_pos (show (List.range' 1 s.size).all (fun j => !throws j) = true from hall)]
    · rw [if_neg hall,
          if_neg (show ¬((List.range' 1 s.size).all (fun j => !throws j) = true) from hall)]

/-- Witness for C6: a copy-relocating type (`nothrowMove = false`,
`copyAvail = true`) whose second copy invocation throws, on a reserve of
`[1, 2, 3]` from capacity 3 to 6: the error carries exactly the pre-call
state. -/
theorem C6_reserve_relocation_safety_witness :
    (⟨[1, 2, 3], 3⟩ : Vector Nat).capacity < 6 ∧
    Vector.ReserveExc false true (fun k => k == 2) (⟨[1, 2, 3], 3⟩ : Vector Nat) 6 =
      Except.error ⟨[1, 2, 3], 3⟩ :=
  ⟨by decide, by
    rw [C6_reserve_relocation_safety false true (fun k => k == 2) ⟨[1, 2, 3], 3⟩ 6 (by decide)]
    rfl⟩

/-- C7: when `rhs.size` exceeds the target's capacity, copy assignment builds
a complete temporary copy of `rhs` and only then swaps it in: if any element
copy throws, the exception escapes with the target exactly unchanged
(`error s`); on success the target is a deep copy of `rhs`, with capacity
sized to `rhs.size`. -/
theorem C7_copy_assign_strong_safety (throws : Nat → Bool) (s rhs : Vector α)
    (h : s.capacity < rhs.size) :
    Vector.copyAssignExc throws s rhs =
      if (List.range' 1 rhs.size).all (fun j => !throws j) then
        .ok ⟨rhs.elems, rhs.size⟩
      else
        .error s := by
  rw [Vector.copyAssignExc, if_pos (by omega)]
  rw [Vector.copyCtorExc, copyNExc_eq throws rhs.elems 1]
  by_cases hall : (List.range' 1 rhs.elems.length).all (fun j => !throws j) = true
  · rw [if_pos hall,
        if_pos (show (List.range' 1 rhs.size).all (fun j => !throws j) = true from hall)]
  · rw [if_neg hall,
        if_neg (show ¬((List.range' 1 rhs.size).all (fun j => !throws j) = true) from hall)]

/-- Witness for C7: assigning `[5]` into an empty target of capacity 0, with
the first copy invocation throwing: the target escapes unchanged. -/
theorem C7_copy_assign_strong_safety_witness :
    (⟨[], 0⟩ : Vector Nat).capacity < (⟨[5], 1⟩ : Vector Nat).size ∧
    Vector.copyAssignExc (fun k => k == 1) (⟨[], 0⟩ : Vector Nat) ⟨[5], 1⟩ =
      Except.error ⟨[], 0⟩ :=
  ⟨by decide, by
    rw [C7_copy_assign_strong_safety (fun k => k == 1) ⟨[], 0⟩ ⟨[5], 1⟩ (by decide)]
    rfl⟩

end CppVector
